import Mathlib

/-!
Verification development for the `tensor_search` repository (Go).

Shallow embedding conventions used throughout this file:
* Go `float64` / `float32` values are modelled as exact rationals (`ℚ`).
  All concrete inputs appearing in theorems are chosen so that every
  square root taken is a square root of a perfect square, where the
  rational model agrees exactly with IEEE semantics.
* `math.Sqrt` is modelled by `Rat.sqrt` (exact on perfect squares).
* Go `int` is modelled as `Int` where values can be negative (limits,
  error codes, milliseconds) and as `Nat` for slice indices, with loop
  guards mirroring the Go guards so that natural subtraction is never
  taken where the Go counterpart would be negative.
* External effects (the HTTP encoder call, file IO, the sqlite store)
  are passed in as parameters describing their outcome; everything the
  repository itself computes is embedded as executable Lean code.
-/

set_option maxRecDepth 4000

namespace TensorSearch

/-- The JSON response envelope of `search.go` (`type Response struct`):
keywords, country, domains, elapsed milliseconds, and error code. -/
structure Response where
  KW : String
  CN : String
  DN : List String
  MS : Int
  ERR : Int
  deriving Repr, DecidableEq

/-- A corpus record of `search.go` (`type DomainEmbedding struct`):
domain name, country tag, and the embedding vector (Go `[]float32`,
modelled as a list of rationals). -/
structure DomainEmbedding where
  Domain : String
  Country : String
  Embedding : List ℚ
  deriving Repr, DecidableEq

/-- Largest `k ≤ fuel` with `k * k ≤ n`: the floor integer square root
when `fuel ≥ n`, by bounded descending search (structural recursion, so
kernel evaluation reduces; the numbers reaching it in this file are
tiny). -/
def natSqrtBelow : Nat → Nat → Nat
  | 0, _ => 0
  | k + 1, n => if (k + 1) * (k + 1) ≤ n then k + 1 else natSqrtBelow k n

/-- Models `math.Sqrt`: the floor integer square roots of numerator and
denominator, exactly as Mathlib's `Rat.sqrt` (`mkRat (Int.sqrt q.num)
(Nat.sqrt q.den)`) but kernel-reducible.  Exact on rationals that are
squares of rationals; every concrete vector used in this file has a
perfect-square norm, where this model agrees with IEEE `math.Sqrt`. -/
def mathSqrt (q : ℚ) : ℚ :=
  mkRat (natSqrtBelow q.num.toNat q.num.toNat) (natSqrtBelow q.den q.den)

/-- Embedding of `cosineSimilarity` (search.go lines 91-109): returns 0
when the two vector lengths differ (no error!), returns 0 when either
norm is zero, otherwise dot product over the product of norms.  The Go
element loop over equal-length slices is rendered as folds over
`List.zip`. -/
def cosineSimilarity (a : List ℚ) (b : List ℚ) : ℚ :=
  if a.length ≠ b.length then 0
  else
    let dotProduct := ((a.zip b).map (fun p => p.1 * p.2)).sum
    let normA := (a.map (fun x => x * x)).sum
    let normB := (b.map (fun x => x * x)).sum
    if normA = 0 ∨ normB = 0 then 0
    else dotProduct / (mathSqrt normA * mathSqrt normB)

/-- Embedding of `cosineDistance` (search.go lines 113-115):
distance = 1 - similarity. -/
def cosineDistance (similarity : ℚ) : ℚ := 1 - similarity

/-- The 0-1 relevance rescaling applied inline by the in-memory ranker
(search.go line 251): `similarity01 := (similarity + 1.0) / 2.0`. -/
def similarity01 (similarity : ℚ) : ℚ := (similarity + 1) / 2

/-- Go `strings.Fields`: split on whitespace, dropping empty fields. -/
def goFields (s : String) : List String :=
  (s.split Char.isWhitespace).filter (fun t => t ≠ "")

/-- Go `strings.TrimPrefix s p`: drop `p` when it is a leading piece of
`s`, otherwise return `s` unchanged. -/
def goTrimHead (s p : String) : String :=
  if s.startsWith p then s.drop p.length else s

/-- Go `strings.TrimSuffix s p`: drop `p` when it is a trailing piece of
`s`, otherwise return `s` unchanged. -/
def goTrimTail (s p : String) : String :=
  if s.endsWith p then s.dropRight p.length else s

/-- Embedding of `parseEmbeddingString` (search.go lines 119-143).
The numeric parser `strconv.ParseFloat` is an abstract parameter
`parseFloat` (all claims proved are independent of how individual float
tokens parse); `none` models a parse error.  The function strips
brackets, splits into whitespace-separated fields, demands exactly 768
fields, and parses each one, failing on the first bad token. -/
def parseEmbeddingString (parseFloat : String → Option ℚ) (embedStr : String) :
    Option (List ℚ) :=
  let s0 := embedStr.trim
  let s1 := goTrimHead s0 "["
  let s2 := goTrimTail s1 "]"
  let s3 := s2.trim
  let fields := goFields s3
  if fields.length ≠ 768 then none
  else fields.mapM (fun f => parseFloat f.trim)

/-- What the data-row loop makes of a single row: `none` when the row
is skipped (fewer than 4 columns, or an unparsable embedding),
otherwise the parsed record. -/
def rowParse (parseFloat : String → Option ℚ) (r : List String) :
    Option DomainEmbedding :=
  match r with
  | _ :: c1 :: c2 :: c3 :: _ =>
    (parseEmbeddingString parseFloat c3).map (fun e => ⟨c1.trim, c2.trim, e⟩)
  | _ => none

/-- Outcome of `loadEmbeddingsFromCSV`: Go either panics on an
out-of-range slice index, returns an error, or returns the slice of
parsed records. -/
inductive LoadResult where
  | panicIndex : LoadResult
  | fail : String → LoadResult
  | ok : List DomainEmbedding → LoadResult
  deriving Repr, DecidableEq

/-- The data-row loop of `loadEmbeddingsFromCSV` (search.go lines
171-194): a row with fewer than 4 columns is skipped; a row whose
fourth column fails `parseEmbeddingString` is skipped with a warning;
otherwise the row becomes a `DomainEmbedding` with trimmed domain and
country columns. -/
def processRows (parseFloat : String → Option ℚ) :
    List (List String) → List DomainEmbedding
  | [] => []
  | record :: rest =>
    match record with
    | _ :: c1 :: c2 :: c3 :: _ =>
      match parseEmbeddingString parseFloat c3 with
      | none => processRows parseFloat rest
      | some embedding =>
        ⟨c1.trim, c2.trim, embedding⟩ :: processRows parseFloat rest
    | _ => processRows parseFloat rest

/-- Embedding of `loadEmbeddingsFromCSV` (search.go lines 147-197) from
the record list produced by `csv.ReadAll` onward (file IO and the CSV
reader itself are outside the repository).  An empty record list is a
load failure.  The header test `records[0][0] == "" ||
records[0][1] == "domain"` is embedded with Go short-circuit `||`
semantics: `records[0][0]` panics when the first record has no cells,
and `records[0][1]` is evaluated (and panics on a 1-cell record)
exactly when the first cell is nonempty. -/
def loadEmbeddingsFromCSV (parseFloat : String → Option ℚ)
    (records : List (List String)) : LoadResult :=
  match records with
  | [] => .fail "CSV file is empty"
  | first :: _ =>
    match first with
    | [] => .panicIndex
    | c0 :: restCells =>
      if c0 = "" then .ok (processRows parseFloat (records.drop 1))
      else
        match restCells with
        | [] => .panicIndex
        | c1 :: _ =>
          if c1 = "domain" then .ok (processRows parseFloat (records.drop 1))
          else .ok (processRows parseFloat (records.drop 0))

/-!
Embedding of Go's `sort.Slice` (src/sort/zsortfunc.go, Go 1.19+): the
pattern-defeating quicksort actually run by the ranker's
`sort.Slice(matches, ...)` call (search.go lines 262-264).  `sort.Slice`
is documented as NOT stable; the embedding is faithful so that the
tie-break behaviour of the ranker can be settled by computation.
Loops are rendered with explicit fuel; every call site passes fuel
provably larger than the number of iterations the Go loop performs, and
fuel exhaustion returns the current state (never reached at the
concrete inputs evaluated in this file).  Indices are `Nat`; every Go
decrement below is guarded exactly as in Go so natural subtraction
never truncates where the Go value would be negative.
-/

section GoSortSlice

variable {α : Type}

/-- Helper for `bitsLen`: counts halvings with structural fuel. -/
def bitsLenAux : Nat → Nat → Nat
  | 0, _ => 0
  | fuel + 1, n => if n = 0 then 0 else bitsLenAux fuel (n / 2) + 1

/-- Go `bits.Len` on a nonnegative value: the number of bits needed to
represent it (fuel-based so kernel evaluation reduces; `fuel = n`
always suffices since halving `n ≥ 1` reaches 0 within `n` steps). -/
def bitsLen (n : Nat) : Nat := bitsLenAux n n

/-- Index read, `l[i]`; callers stay in bounds, `dflt` is never hit in
an in-contract run. -/
def lsGet (dflt : α) (l : List α) (i : Nat) : α := l.getD i dflt

/-- Go `data.Swap(i, j)` on a slice. -/
def lsSwap (dflt : α) (l : List α) (i j : Nat) : List α :=
  if i < l.length ∧ j < l.length then
    (l.set i (lsGet dflt l j)).set j (lsGet dflt l i)
  else l

/-- Go `data.Less(i, j)` for `sort.Slice`: compare the current
elements at positions `i` and `j`. -/
def lsLess (lt : α → α → Bool) (dflt : α) (l : List α) (i j : Nat) : Bool :=
  lt (lsGet dflt l i) (lsGet dflt l j)

/-- Inner loop of `insertionSort_func`: bubble the element at `j` left
while it is strictly less than its predecessor and `j > a`. -/
def insertionInner (lt : α → α → Bool) (dflt : α) :
    Nat → List α → Nat → Nat → List α
  | 0, l, _, _ => l
  | fuel + 1, l, j, a =>
    if a < j ∧ lsLess lt dflt l j (j - 1) then
      insertionInner lt dflt fuel (lsSwap dflt l j (j - 1)) (j - 1) a
    else l

/-- `insertionSort_func(data, a, b)`: for `i` from `a+1` to `b-1`,
run the inner bubbling loop. -/
def insertionSortGo (lt : α → α → Bool) (dflt : α) (l : List α) (a b : Nat) :
    List α :=
  (List.range' (a + 1) (b - (a + 1))).foldl
    (fun acc i => insertionInner lt dflt (i + 1) acc i a) l

/-- Loop body of `siftDown_func`. -/
def siftDownLoop (lt : α → α → Bool) (dflt : α) :
    Nat → List α → Nat → Nat → Nat → List α
  | 0, l, _, _, _ => l
  | fuel + 1, l, root, hi, first =>
    let child := 2 * root + 1
    if child ≥ hi then l
    else
      let child :=
        if child + 1 < hi ∧ lsLess lt dflt l (first + child) (first + child + 1)
        then child + 1 else child
      if ¬ lsLess lt dflt l (first + root) (first + child) then l
      else siftDownLoop lt dflt fuel
        (lsSwap dflt l (first + root) (first + child)) child hi first

/-- `siftDown_func(data, lo, hi, first)`. -/
def siftDownGo (lt : α → α → Bool) (dflt : α) (l : List α)
    (lo hi first : Nat) : List α :=
  siftDownLoop lt dflt (hi + 1) l lo hi first

/-- `heapSort_func(data, a, b)`: build the heap (`i` from `(hi-1)/2`
down to 0; Go's `(hi-1)/2` truncates toward zero, matching natural
subtraction here), then pop (`i` from `hi-1` down to 0). -/
def heapSortGo (lt : α → α → Bool) (dflt : α) (l : List α) (a b : Nat) :
    List α :=
  let hi := b - a
  let l1 := ((List.range ((hi - 1) / 2 + 1)).reverse).foldl
    (fun acc i => siftDownGo lt dflt acc i hi a) l
  ((List.range hi).reverse).foldl
    (fun acc i => siftDownGo lt dflt (lsSwap dflt acc a (a + i)) 0 i a) l1

/-- Hints of `choosePivot_func`. -/
inductive SortedHint where
  | increasing : SortedHint
  | decreasing : SortedHint
  | unknown : SortedHint
  deriving Repr, DecidableEq

/-- `order2_func`: order two indices by their elements, counting swaps. -/
def order2 (lt : α → α → Bool) (dflt : α) (l : List α) (a b swaps : Nat) :
    Nat × Nat × Nat :=
  if lsLess lt dflt l b a then (b, a, swaps + 1) else (a, b, swaps)

/-- `median_func`: index of the median of three elements. -/
def medianIdx (lt : α → α → Bool) (dflt : α) (l : List α) (a b c swaps : Nat) :
    Nat × Nat :=
  let p1 := order2 lt dflt l a b swaps
  let p2 := order2 lt dflt l p1.2.1 c p1.2.2
  let p3 := order2 lt dflt l p1.1 p2.1 p2.2.2
  (p3.2.1, p3.2.2)

/-- `medianAdjacent_func`: median of `l[a-1], l[a], l[a+1]`. -/
def medianAdjacent (lt : α → α → Bool) (dflt : α) (l : List α) (a swaps : Nat) :
    Nat × Nat :=
  medianIdx lt dflt l (a - 1) a (a + 1) swaps

/-- `choosePivot_func(data, a, b)`: static pivot below length 8,
median-of-three up to 49, Tukey ninther from 50; the swap count yields
the sortedness hint. -/
def choosePivot (lt : α → α → Bool) (dflt : α) (l : List α) (a b : Nat) :
    Nat × SortedHint :=
  let len := b - a
  let i := a + len / 4 * 1
  let j := a + len / 4 * 2
  let k := a + len / 4 * 3
  if len ≥ 8 then
    let q :=
      if len ≥ 50 then
        let m1 := medianAdjacent lt dflt l i 0
        let m2 := medianAdjacent lt dflt l j m1.2
        let m3 := medianAdjacent lt dflt l k m2.2
        (m1.1, m2.1, m3.1, m3.2)
      else (i, j, k, 0)
    let m := medianIdx lt dflt l q.1 q.2.1 q.2.2.1 q.2.2.2
    if m.2 = 0 then (m.1, SortedHint.increasing)
    else if m.2 = 12 then (m.1, SortedHint.decreasing)
    else (m.1, SortedHint.unknown)
  else (j, SortedHint.increasing)

/-- `reverseRange_func(data, a, b)` loop. -/
def reverseRangeLoop (dflt : α) : Nat → List α → Nat → Nat → List α
  | 0, l, _, _ => l
  | fuel + 1, l, i, j =>
    if i < j then reverseRangeLoop dflt fuel (lsSwap dflt l i j) (i + 1) (j - 1)
    else l

/-- `reverseRange_func(data, a, b)`. -/
def reverseRangeGo (dflt : α) (l : List α) (a b : Nat) : List α :=
  reverseRangeLoop dflt (b + 1) l a (b - 1)

/-- Advance scan of Go's partial insertion sort:
`for i < b && !data.Less(i, i-1) do i++`. -/
def advanceLoop (lt : α → α → Bool) (dflt : α) :
    Nat → List α → Nat → Nat → Nat
  | 0, _, i, _ => i
  | fuel + 1, l, i, b =>
    if i < b ∧ ¬ lsLess lt dflt l i (i - 1) then advanceLoop lt dflt fuel l (i + 1) b
    else i

/-- Left shift of Go's partial insertion sort:
`for j := i-1; j >= 1; j--: stop unless Less(j, j-1), else swap`. -/
def shiftLeftLoop (lt : α → α → Bool) (dflt : α) :
    Nat → List α → Nat → List α
  | 0, l, _ => l
  | fuel + 1, l, j =>
    if 1 ≤ j ∧ lsLess lt dflt l j (j - 1) then
      shiftLeftLoop lt dflt fuel (lsSwap dflt l j (j - 1)) (j - 1)
    else l

/-- Right shift of Go's partial insertion sort:
`for j := i+1; j < b; j++: stop unless Less(j, j-1), else swap`. -/
def shiftRightLoop (lt : α → α → Bool) (dflt : α) :
    Nat → List α → Nat → Nat → List α
  | 0, l, _, _ => l
  | fuel + 1, l, j, b =>
    if j < b ∧ lsLess lt dflt l j (j - 1) then
      shiftRightLoop lt dflt fuel (lsSwap dflt l j (j - 1)) (j + 1) b
    else l

/-- Outer loop (at most `maxSteps = 5` rounds) of Go's
`partialInsertionSort_func(data, a, b)`; returns the data and whether
the range ended up sorted. -/
def maxStepsLoop (lt : α → α → Bool) (dflt : α) (a b : Nat) :
    Nat → List α → Nat → List α × Bool
  | 0, l, _ => (l, false)
  | steps + 1, l, i =>
    let i := advanceLoop lt dflt (b + 1) l i b
    if i = b then (l, true)
    else if b - a < 50 then (l, false)
    else
      let l := lsSwap dflt l i (i - 1)
      let l := if i - a ≥ 2 then shiftLeftLoop lt dflt i l (i - 1) else l
      let l := if b - i ≥ 2 then shiftRightLoop lt dflt b l (i + 1) b else l
      maxStepsLoop lt dflt a b steps l i

/-- Go `partialInsertionSort_func(data, a, b)`. -/
def maxStepsInsertionGo (lt : α → α → Bool) (dflt : α) (l : List α) (a b : Nat) :
    List α × Bool :=
  maxStepsLoop lt dflt a b 5 l (a + 1)

/-- First scan of `partition_func`:
`for i <= j && data.Less(i, a) do i++`. -/
def scanILoop (lt : α → α → Bool) (dflt : α) :
    Nat → List α → Nat → Nat → Nat → Nat
  | 0, _, i, _, _ => i
  | fuel + 1, l, i, j, a =>
    if i ≤ j ∧ lsLess lt dflt l i a then scanILoop lt dflt fuel l (i + 1) j a
    else i

/-- Second scan of `partition_func`:
`for i <= j && !data.Less(j, a) do j--` (the body needs `j ≥ i ≥ a+1 ≥
1`, so the decrement never truncates). -/
def scanJLoop (lt : α → α → Bool) (dflt : α) :
    Nat → List α → Nat → Nat → Nat → Nat
  | 0, _, _, j, _ => j
  | fuel + 1, l, i, j, a =>
    if i ≤ j ∧ ¬ lsLess lt dflt l j a then scanJLoop lt dflt fuel l i (j - 1) a
    else j

/-- Main loop of `partition_func` after the first exchange. -/
def partitionLoop (lt : α → α → Bool) (dflt : α) :
    Nat → List α → Nat → Nat → Nat → List α × Nat
  | 0, l, _, j, _ => (l, j)
  | fuel + 1, l, i, j, a =>
    let i := scanILoop lt dflt (j + 2) l i j a
    let j' := scanJLoop lt dflt (j + 2) l i j a
    if i > j' then (l, j')
    else partitionLoop lt dflt fuel (lsSwap dflt l i j') (i + 1) (j' - 1) a

/-- Go `partition_func(data, a, b, pivot)`: returns the data, the new
pivot position, and whether the range was already partitioned. -/
def partitionGo (lt : α → α → Bool) (dflt : α) (l : List α) (a b pivot : Nat) :
    List α × Nat × Bool :=
  let l := lsSwap dflt l a pivot
  let i := a + 1
  let j := b - 1
  let i := scanILoop lt dflt (b + 2) l i j a
  let j := scanJLoop lt dflt (b + 2) l i j a
  if i > j then (lsSwap dflt l j a, j, true)
  else
    let l := lsSwap dflt l i j
    let p := partitionLoop lt dflt (b + 2) l (i + 1) (j - 1) a
    (lsSwap dflt p.1 p.2 a, p.2, false)

/-- First scan of `partitionEqual_func`:
`for i <= j && !data.Less(a, i) do i++`. -/
def scanIEqLoop (lt : α → α → Bool) (dflt : α) :
    Nat → List α → Nat → Nat → Nat → Nat
  | 0, _, i, _, _ => i
  | fuel + 1, l, i, j, a =>
    if i ≤ j ∧ ¬ lsLess lt dflt l a i then scanIEqLoop lt dflt fuel l (i + 1) j a
    else i

/-- Second scan of `partitionEqual_func`:
`for i <= j && data.Less(a, j) do j--`. -/
def scanJEqLoop (lt : α → α → Bool) (dflt : α) :
    Nat → List α → Nat → Nat → Nat → Nat
  | 0, _, _, j, _ => j
  | fuel + 1, l, i, j, a =>
    if i ≤ j ∧ lsLess lt dflt l a j then scanJEqLoop lt dflt fuel l i (j - 1) a
    else j

/-- Main loop of `partitionEqual_func`; returns the data and `i`. -/
def partitionEqualLoop (lt : α → α → Bool) (dflt : α) :
    Nat → List α → Nat → Nat → Nat → List α × Nat
  | 0, l, i, _, _ => (l, i)
  | fuel + 1, l, i, j, a =>
    let i := scanIEqLoop lt dflt (j + 2) l i j a
    let j' := scanJEqLoop lt dflt (j + 2) l i j a
    if i > j' then (l, i)
    else partitionEqualLoop lt dflt fuel (lsSwap dflt l i j') (i + 1) (j' - 1) a

/-- Go `partitionEqual_func(data, a, b, pivot)`. -/
def partitionEqualGo (lt : α → α → Bool) (dflt : α) (l : List α)
    (a b pivot : Nat) : List α × Nat :=
  let l := lsSwap dflt l a pivot
  partitionEqualLoop lt dflt (b + 2) l (a + 1) (b - 1) a

/-- One step of Go's `xorshift` pseudo-random generator (uint64
arithmetic, modelled modulo `2^64`). -/
def xorshiftNext (r : Nat) : Nat :=
  let r1 := (r ^^^ (r <<< 13)) % 2 ^ 64
  let r2 := (r1 ^^^ (r1 >>> 7)) % 2 ^ 64
  (r2 ^^^ (r2 <<< 17)) % 2 ^ 64

/-- Go `breakPatterns_func(data, a, b)`: three pseudo-random swaps,
seeded deterministically with the range length. -/
def breakPatternsGo (dflt : α) (l : List α) (a b : Nat) : List α :=
  let len := b - a
  if len ≥ 8 then
    let modulus := 2 ^ bitsLen len
    let idx := a + len / 4 * 2 - 1
    let r1 := xorshiftNext len
    let o1 := r1 &&& (modulus - 1)
    let o1 := if o1 ≥ len then o1 - len else o1
    let l := lsSwap dflt l (idx - 1 + 0) (a + o1)
    let r2 := xorshiftNext r1
    let o2 := r2 &&& (modulus - 1)
    let o2 := if o2 ≥ len then o2 - len else o2
    let l := lsSwap dflt l (idx - 1 + 1) (a + o2)
    let r3 := xorshiftNext r2
    let o3 := r3 &&& (modulus - 1)
    let o3 := if o3 ≥ len then o3 - len else o3
    lsSwap dflt l (idx - 1 + 2) (a + o3)
  else l

/-- Shape of the re-entry continuation of `pdqsort_func`: data, `a`,
`b`, `limit`, `wasBalanced`, `wasPartitioned`. -/
def PdqRecur (α : Type) : Type :=
  List α → Nat → Nat → Nat → Bool → Bool → List α

/-- `pdqsort_func` loop tail after partitioning: compute the balance
flag, recurse into the smaller side (with fresh flags), and re-enter
the loop on the larger side with the new flags. -/
def pdqPartCont (recur : PdqRecur α) (a b limit : Nat)
    (pp : List α × Nat × Bool) : List α :=
  let mid := pp.2.1
  let wasBalanced : Bool := decide (min (mid - a) (b - mid) ≥ (b - a) / 8)
  if mid - a < b - mid then
    recur (recur pp.1 a mid limit true true) (mid + 1) b limit wasBalanced pp.2.2
  else
    recur (recur pp.1 (mid + 1) b limit true true) a mid limit wasBalanced pp.2.2

/-- `pdqsort_func` stage: run `partition` and continue. -/
def pdqPartStage (lt : α → α → Bool) (dflt : α) (recur : PdqRecur α)
    (l : List α) (a b limit pivot : Nat) : List α :=
  pdqPartCont recur a b limit (partitionGo lt dflt l a b pivot)

/-- `pdqsort_func` loop tail after `partitionEqual`: `continue` with
`a = mid`, keeping the current flags and limit. -/
def pdqEqualCont (recur : PdqRecur α) (b limit : Nat) (wb wp : Bool)
    (pe : List α × Nat) : List α :=
  recur pe.1 pe.2 b limit wb wp

/-- `pdqsort_func` stage: the many-duplicates test
`a > 0 && !data.Less(a-1, pivot)` choosing `partitionEqual` over
`partition`. -/
def pdqEqualStage (lt : α → α → Bool) (dflt : α) (recur : PdqRecur α)
    (l : List α) (a b limit : Nat) (wb wp : Bool) (pivot : Nat) : List α :=
  if 0 < a ∧ ¬ lt (lsGet dflt l (a - 1)) (lsGet dflt l pivot) then
    pdqEqualCont recur b limit wb wp (partitionEqualGo lt dflt l a b pivot)
  else pdqPartStage lt dflt recur l a b limit pivot

/-- `pdqsort_func` stage after the partial insertion sort: stop when it
reports sorted, otherwise continue with its (possibly shifted) data. -/
def pdqEarlyDone (lt : α → α → Bool) (dflt : α) (recur : PdqRecur α)
    (a b limit : Nat) (wb wp : Bool) (pivot : Nat)
    (pr : List α × Bool) : List α :=
  if pr.2 then pr.1
  else pdqEqualStage lt dflt recur pr.1 a b limit wb wp pivot

/-- `pdqsort_func` stage: the likely-sorted test running the partial
insertion sort. -/
def pdqEarlyStage (lt : α → α → Bool) (dflt : α) (recur : PdqRecur α)
    (l : List α) (a b limit : Nat) (wb wp : Bool) (pivot : Nat)
    (hint : SortedHint) : List α :=
  if wb ∧ wp ∧ hint = SortedHint.increasing then
    pdqEarlyDone lt dflt recur a b limit wb wp pivot
      (maxStepsInsertionGo lt dflt l a b)
  else pdqEqualStage lt dflt recur l a b limit wb wp pivot

/-- `pdqsort_func` stage: on a decreasing hint, reverse the range,
mirror the pivot index, and upgrade the hint to increasing. -/
def pdqHintStage (lt : α → α → Bool) (dflt : α) (recur : PdqRecur α)
    (l : List α) (a b limit : Nat) (wb wp : Bool)
    (cp : Nat × SortedHint) : List α :=
  if cp.2 = SortedHint.decreasing then
    pdqEarlyStage lt dflt recur (reverseRangeGo dflt l a b) a b limit wb wp
      (b - 1 - (cp.1 - a)) SortedHint.increasing
  else pdqEarlyStage lt dflt recur l a b limit wb wp cp.1 cp.2

/-- `pdqsort_func` stage: choose the pivot. -/
def pdqPivotStage (lt : α → α → Bool) (dflt : α) (recur : PdqRecur α)
    (l : List α) (a b limit : Nat) (wb wp : Bool) : List α :=
  pdqHintStage lt dflt recur l a b limit wb wp (choosePivot lt dflt l a b)

/-- `pdqsort_func` stage: after an unbalanced partition, scatter with
`breakPatterns` and spend one unit of `limit`. -/
def pdqBreakStage (lt : α → α → Bool) (dflt : α) (recur : PdqRecur α)
    (l : List α) (a b limit : Nat) (wb wp : Bool) : List α :=
  if ¬ wb then
    pdqPivotStage lt dflt recur (breakPatternsGo dflt l a b) a b (limit - 1) wb wp
  else pdqPivotStage lt dflt recur l a b limit wb wp

/-- Go `pdqsort_func(data, a, b, limit)`.  The Go loop plus its
recursion is rendered as one fuel recursion over the stage functions
above: `continue` re-enters with new bounds, recursive Go calls
re-enter with both balance flags true.  The fuel bounds the nesting
depth, which is at most the initial range length plus one (every
re-entry strictly shrinks the range). -/
def pdqsortLoop (lt : α → α → Bool) (dflt : α) :
    Nat → List α → Nat → Nat → Nat → Bool → Bool → List α
  | 0, l, _, _, _, _, _ => l
  | fuel + 1, l, a, b, limit, wasBalanced, wasPartitioned =>
    if b - a ≤ 12 then insertionSortGo lt dflt l a b
    else if limit = 0 then heapSortGo lt dflt l a b
    else
      pdqBreakStage lt dflt
        (fun l' a' b' limit' wb' wp' => pdqsortLoop lt dflt fuel l' a' b' limit' wb' wp')
        l a b limit wasBalanced wasPartitioned

/-- Go `sort.Slice(x, less)`: `limit := bits.Len(len)`, then
`pdqsort(data, 0, len, limit)` with both flags true.  Fuel
`len + 2` strictly exceeds the re-entry depth bound. -/
def goSortSlice (lt : α → α → Bool) (dflt : α) (l : List α) : List α :=
  pdqsortLoop lt dflt (l.length + 2) l 0 l.length (bitsLen l.length) true true

end GoSortSlice

/-- The transient per-candidate record built by the ranking loop
(`type Match struct` inside `getMatchingDomains`, search.go lines
237-242): domain, country, the 0-1 rescaled similarity, and the
cosine distance. -/
structure Match where
  Domain : String
  Country : String
  Similarity : ℚ
  Distance : ℚ
  deriving Repr, DecidableEq

/-- Placeholder element for out-of-range slice reads inside the sort;
never read by an in-bounds run. -/
def defaultMatch : Match := ⟨"", "", 0, 0⟩

/-- The scoring loop of `getMatchingDomains` (search.go lines 244-259):
one `Match` per corpus record, in corpus order. -/
def scoreCorpus (queryEmbedding : List ℚ)
    (domainEmbeddings : List DomainEmbedding) : List Match :=
  domainEmbeddings.map (fun de =>
    let similarity := cosineSimilarity queryEmbedding de.Embedding
    ⟨de.Domain, de.Country, similarity01 similarity, cosineDistance similarity⟩)

/-- The comparison closure passed to `sort.Slice` (search.go lines
262-264): strictly ascending distance. -/
def lessByDistance (x y : Match) : Bool := decide (x.Distance < y.Distance)

/-- The sort step of the ranker: `sort.Slice(matches, lessByDistance)`.
The Go identifier `matches` is a reserved word in Lean and is rendered
`ms`. -/
def sortMatches (ms : List Match) : List Match :=
  goSortSlice lessByDistance defaultMatch ms

/-- The filter-and-truncate walk of `getMatchingDomains` (search.go
lines 267-283), threading the `domains` accumulator: skip below
threshold; keep when the country filter passes; break as soon as
`limit > 0` and the kept count has reached `limit`. -/
def filterLoop (country : String) (threshold : ℚ) (limit : Int) :
    List Match → List String → List String
  | [], domains => domains
  | m :: rest, domains =>
    if m.Similarity < threshold then filterLoop country threshold limit rest domains
    else if country = "" ∨ m.Country = country then
      let domains' := domains ++ [m.Domain]
      if 0 < limit ∧ limit ≤ (domains'.length : Int) then domains'
      else filterLoop country threshold limit rest domains'
    else filterLoop country threshold limit rest domains

/-- Embedding of the in-memory `getMatchingDomains` (search.go lines
203-288).  External effects are parameters: `encodeResult` is the
outcome of the HTTP `encode` call, `loadResult` the outcome of
`loadEmbeddingsFromCSV` on the file behind `dbPath` (in the program it
is produced by the loader embedded above), and the `ms*` arguments are
the `time.Since(startTime)` readings at the three return points.  The
result is `none` when the loader panicked (the panic propagates
through the engine), otherwise the Go `(Response, error)` pair. -/
def getMatchingDomains (keywords country : String) (threshold : ℚ)
    (limit : Int) (encodeResult : Except String (List ℚ))
    (loadResult : LoadResult) (msEncodeFail msLoadFail msDone : Int) :
    Option (Response × Option String) :=
  let resp0 : Response := ⟨keywords, country, [], 0, 0⟩
  let resp1 : Response := if country = "" then { resp0 with CN := "us" } else resp0
  let country := if country = "" then "us" else country
  match encodeResult with
  | .error _ =>
    some ({ resp1 with ERR := 1, MS := msEncodeFail },
      some "failed to encode keywords")
  | .ok queryEmbedding =>
    match loadResult with
    | .panicIndex => none
    | .fail _ =>
      some ({ resp1 with ERR := 2, MS := msLoadFail },
        some "failed to load embeddings")
    | .ok domainEmbeddings =>
      let sorted := sortMatches (scoreCorpus queryEmbedding domainEmbeddings)
      let domains := filterLoop country threshold limit sorted []
      some ({ resp1 with DN := domains, MS := msDone }, none)

/-- The pass condition applied by the filter walk to one candidate,
mirroring the two `if`s of search.go lines 269-275: not below the
threshold, and through the country filter. -/
def keepMatch (country : String) (threshold : ℚ) (m : Match) : Bool :=
  if m.Similarity < threshold then false
  else if country = "" ∨ m.Country = country then true
  else false

/-- C1's failing input: twelve corpus records orthogonal to the query
`[1, 0]` (cosine similarity 0, distance 1 — all tied) in corpus order
`d0 … d11`, followed by `d12` equal to the query (distance 0).  All
norms are perfect squares, so the rational model of `math.Sqrt` is
exact on every record. -/
def c1Corpus : List DomainEmbedding :=
  [⟨"d0", "us", [0, 1]⟩, ⟨"d1", "us", [0, 1]⟩, ⟨"d2", "us", [0, 1]⟩,
    ⟨"d3", "us", [0, 1]⟩, ⟨"d4", "us", [0, 1]⟩, ⟨"d5", "us", [0, 1]⟩,
    ⟨"d6", "us", [0, 1]⟩, ⟨"d7", "us", [0, 1]⟩, ⟨"d8", "us", [0, 1]⟩,
    ⟨"d9", "us", [0, 1]⟩, ⟨"d10", "us", [0, 1]⟩, ⟨"d11", "us", [0, 1]⟩,
    ⟨"d12", "us", [1, 0]⟩]

namespace SqliteVec

/-- One row returned by the sqlite-vec store (src/unnamed/part_000,
`SELECT d.domain, d.country, d.distance ... ORDER BY d.distance`). -/
structure StoreRow where
  domain : String
  country : String
  distance : ℚ
  deriving Repr, DecidableEq

/-- The fixed neighbor count in the SQL query of the delegated backend
(`AND k = 10`, src/unnamed/part_000 line 244): the store returns at
most this many rows. -/
def neighborCap : Nat := 10

/-- The distance-to-similarity conversion of the delegated backend
(src/unnamed/part_000 line 270): `similarity := 1.0 - (distance / 2.0)`. -/
def similarityFromDistance (distance : ℚ) : ℚ := 1 - distance / 2

/-- The pass condition of the delegated backend's row loop, mirroring
its two `if`s: not below the threshold after the distance-to-similarity
conversion, and through the country filter. -/
def keepRow (country : String) (threshold : ℚ) (r : StoreRow) : Bool :=
  if similarityFromDistance r.distance < threshold then false
  else if country = "" ∨ r.country = country then true
  else false

/-- The row loop of the delegated backend (src/unnamed/part_000 lines
257-281): convert distance to similarity, drop rows below the
threshold, keep rows passing the country filter, in store order; no
re-sorting. -/
def rowsLoop (country : String) (threshold : ℚ) : List StoreRow → List String
  | [] => []
  | row :: rest =>
    if similarityFromDistance row.distance < threshold then
      rowsLoop country threshold rest
    else if country = "" ∨ row.country = country then
      row.domain :: rowsLoop country threshold rest
    else rowsLoop country threshold rest

/-- Embedding of the delegated-backend `getMatchingDomains`
(src/unnamed/part_000 lines 186-292).  External effects are
parameters: the encoder outcome, whether `sql.Open` and `db.Ping`
succeed, and the store's row list (already decoded; per-row `Scan`
transport failures are not modelled).  The `ms*` arguments are the
elapsed-time readings at the respective return points.  Note this
version has no `limit` parameter at all. -/
def getMatchingDomains (keywords country : String) (threshold : ℚ)
    (encodeResult : Except String (List ℚ)) (openOk pingOk : Bool)
    (queryResult : Except String (List StoreRow))
    (msEncodeFail msOpenFail msPingFail msQueryFail msDone : Int) :
    Response × Option String :=
  let resp0 : Response := ⟨keywords, country, [], 0, 0⟩
  let resp1 : Response := if country = "" then { resp0 with CN := "us" } else resp0
  let country := if country = "" then "us" else country
  match encodeResult with
  | .error _ =>
    ({ resp1 with ERR := 1, MS := msEncodeFail },
      some "failed to encode keywords")
  | .ok _ =>
    if ¬ openOk then
      ({ resp1 with ERR := 2, MS := msOpenFail }, some "failed to open database")
    else if ¬ pingOk then
      ({ resp1 with ERR := 3, MS := msPingFail }, some "failed to ping database")
    else
      match queryResult with
      | .error _ =>
        ({ resp1 with ERR := 4, MS := msQueryFail },
          some "failed to execute query")
      | .ok rows =>
        ({ resp1 with DN := rowsLoop country threshold rows, MS := msDone },
          none)

end SqliteVec

/-!
Permutation layer: every building block of the embedded `sort.Slice`
only rearranges its list (it is built from index swaps), so the sorted
candidate list is a permutation of the scored corpus.  This is what
connects engine-level claims about "every candidate" to the walk over
the sorted list.
-/

section PermLemmas

variable {α : Type}

theorem cons_set_getD_perm (d x : α) :
    ∀ (l : List α) (k : Nat), k < l.length →
      ((l.getD k d) :: l.set k x).Perm (x :: l) := by
  intro l
  induction l with
  | nil => intro k hk; simp at hk
  | cons y ys ih =>
    intro k hk
    cases k with
    | zero => simpa using List.Perm.swap x y ys
    | succ k =>
      simp only [List.getD_cons_succ, List.set_cons_succ]
      exact ((List.Perm.swap y (ys.getD k d) (ys.set k x)).trans
        ((ih k (by simpa using hk)).cons y)).trans (List.Perm.swap x y ys)

theorem set_set_getD_perm (d : α) :
    ∀ (l : List α) (i j : Nat), i < l.length → j < l.length →
      ((l.set i (l.getD j d)).set j (l.getD i d)).Perm l := by
  intro l
  induction l with
  | nil => intro i j hi _; simp at hi
  | cons y ys ih =>
    intro i j hi hj
    match i, j with
    | 0, 0 => simp
    | 0, j + 1 =>
      simp only [List.getD_cons_zero, List.getD_cons_succ, List.set_cons_zero,
        List.set_cons_succ]
      exact cons_set_getD_perm d y ys j (by simpa using hj)
    | i + 1, 0 =>
      simp only [List.getD_cons_zero, List.getD_cons_succ, List.set_cons_zero,
        List.set_cons_succ]
      exact cons_set_getD_perm d y ys i (by simpa using hi)
    | i + 1, j + 1 =>
      simp only [List.getD_cons_succ, List.set_cons_succ]
      exact (ih i j (by simpa using hi) (by simpa using hj)).cons y

theorem lsSwap_perm (d : α) (l : List α) (i j : Nat) :
    (lsSwap d l i j).Perm l := by
  unfold lsSwap lsGet
  split
  · next h => exact set_set_getD_perm d l i j h.1 h.2
  · exact List.Perm.refl l

theorem foldl_perm {β : Type} (f : List α → β → List α)
    (h : ∀ l b, (f l b).Perm l) :
    ∀ (bs : List β) (l : List α), (bs.foldl f l).Perm l := by
  intro bs
  induction bs with
  | nil => intro l; exact List.Perm.refl l
  | cons b bs ih => intro l; exact (ih (f l b)).trans (h l b)

theorem insertionInner_perm (lt : α → α → Bool) (d : α) :
    ∀ (fuel : Nat) (l : List α) (j a : Nat),
      (insertionInner lt d fuel l j a).Perm l := by
  intro fuel
  induction fuel with
  | zero => intro l j a; exact List.Perm.refl l
  | succ fuel ih =>
    intro l j a
    simp only [insertionInner]
    split
    · exact (ih _ _ _).trans (lsSwap_perm d l j (j - 1))
    · exact List.Perm.refl l

theorem insertionSortGo_perm (lt : α → α → Bool) (d : α) (l : List α)
    (a b : Nat) : (insertionSortGo lt d l a b).Perm l := by
  unfold insertionSortGo
  exact foldl_perm _ (fun l' i => insertionInner_perm lt d (i + 1) l' i a) _ l

theorem siftDownLoop_perm (lt : α → α → Bool) (d : α) :
    ∀ (fuel : Nat) (l : List α) (root hi first : Nat),
      (siftDownLoop lt d fuel l root hi first).Perm l := by
  intro fuel
  induction fuel with
  | zero => intro l root hi first; exact List.Perm.refl l
  | succ fuel ih =>
    intro l root hi first
    simp only [siftDownLoop]
    split
    · exact List.Perm.refl l
    · split <;> split
      · exact List.Perm.refl l
      · exact (ih _ _ _ _).trans (lsSwap_perm d l _ _)
      · exact List.Perm.refl l
      · exact (ih _ _ _ _).trans (lsSwap_perm d l _ _)

theorem siftDownGo_perm (lt : α → α → Bool) (d : α) (l : List α)
    (lo hi first : Nat) : (siftDownGo lt d l lo hi first).Perm l :=
  siftDownLoop_perm lt d (hi + 1) l lo hi first

theorem heapSortGo_perm (lt : α → α → Bool) (d : α) (l : List α)
    (a b : Nat) : (heapSortGo lt d l a b).Perm l := by
  unfold heapSortGo
  exact (foldl_perm _
    (fun l' i => (siftDownGo_perm lt d (lsSwap d l' a (a + i)) 0 i a).trans
      (lsSwap_perm d l' a (a + i))) _ _).trans
    (foldl_perm _ (fun l' i => siftDownGo_perm lt d l' i (b - a) a) _ l)

theorem reverseRangeLoop_perm (d : α) :
    ∀ (fuel : Nat) (l : List α) (i j : Nat),
      (reverseRangeLoop d fuel l i j).Perm l := by
  intro fuel
  induction fuel with
  | zero => intro l i j; exact List.Perm.refl l
  | succ fuel ih =>
    intro l i j
    simp only [reverseRangeLoop]
    split
    · exact (ih _ _ _).trans (lsSwap_perm d l i j)
    · exact List.Perm.refl l

theorem reverseRangeGo_perm (d : α) (l : List α) (a b : Nat) :
    (reverseRangeGo d l a b).Perm l :=
  reverseRangeLoop_perm d (b + 1) l a (b - 1)

theorem shiftLeftLoop_perm (lt : α → α → Bool) (d : α) :
    ∀ (fuel : Nat) (l : List α) (j : Nat),
      (shiftLeftLoop lt d fuel l j).Perm l := by
  intro fuel
  induction fuel with
  | zero => intro l j; exact List.Perm.refl l
  | succ fuel ih =>
    intro l j
    simp only [shiftLeftLoop]
    split
    · exact (ih _ _).trans (lsSwap_perm d l j (j - 1))
    · exact List.Perm.refl l

theorem shiftRightLoop_perm (lt : α → α → Bool) (d : α) :
    ∀ (fuel : Nat) (l : List α) (j b : Nat),
      (shiftRightLoop lt d fuel l j b).Perm l := by
  intro fuel
  induction fuel with
  | zero => intro l j b; exact List.Perm.refl l
  | succ fuel ih =>
    intro l j b
    simp only [shiftRightLoop]
    split
    · exact (ih _ _ _).trans (lsSwap_perm d l j (j - 1))
    · exact List.Perm.refl l

theorem maxStepsLoop_perm (lt : α → α → Bool) (d : α) (a b : Nat) :
    ∀ (fuel : Nat) (l : List α) (i : Nat),
      (maxStepsLoop lt d a b fuel l i).1.Perm l := by
  intro fuel
  induction fuel with
  | zero => intro l i; exact List.Perm.refl l
  | succ fuel ih =>
    intro l i
    simp only [maxStepsLoop]
    split
    · exact List.Perm.refl l
    · split
      · exact List.Perm.refl l
      · refine (ih _ _).trans ?_
        split
        · refine (shiftRightLoop_perm lt d _ _ _ _).trans ?_
          split
          · exact (shiftLeftLoop_perm lt d _ _ _).trans (lsSwap_perm d l _ _)
          · exact lsSwap_perm d l _ _
        · split
          · exact (shiftLeftLoop_perm lt d _ _ _).trans (lsSwap_perm d l _ _)
          · exact lsSwap_perm d l _ _

theorem maxStepsInsertionGo_perm (lt : α → α → Bool) (d : α) (l : List α)
    (a b : Nat) : (maxStepsInsertionGo lt d l a b).1.Perm l :=
  maxStepsLoop_perm lt d a b 5 l (a + 1)

theorem partitionLoop_perm (lt : α → α → Bool) (d : α) :
    ∀ (fuel : Nat) (l : List α) (i j a : Nat),
      (partitionLoop lt d fuel l i j a).1.Perm l := by
  intro fuel
  induction fuel with
  | zero => intro l i j a; exact List.Perm.refl l
  | succ fuel ih =>
    intro l i j a
    simp only [partitionLoop]
    split
    · exact List.Perm.refl l
    · exact (ih _ _ _ _).trans (lsSwap_perm d l _ _)

theorem partitionGo_perm (lt : α → α → Bool) (d : α) (l : List α)
    (a b pivot : Nat) : (partitionGo lt d l a b pivot).1.Perm l := by
  simp only [partitionGo]
  split
  · exact (lsSwap_perm d _ _ _).trans (lsSwap_perm d l a pivot)
  · exact ((lsSwap_perm d _ _ _).trans
      ((partitionLoop_perm lt d _ _ _ _ _).trans
        ((lsSwap_perm d _ _ _).trans (lsSwap_perm d l a pivot))))

theorem partitionEqualLoop_perm (lt : α → α → Bool) (d : α) :
    ∀ (fuel : Nat) (l : List α) (i j a : Nat),
      (partitionEqualLoop lt d fuel l i j a).1.Perm l := by
  intro fuel
  induction fuel with
  | zero => intro l i j a; exact List.Perm.refl l
  | succ fuel ih =>
    intro l i j a
    simp only [partitionEqualLoop]
    split
    · exact List.Perm.refl l
    · exact (ih _ _ _ _).trans (lsSwap_perm d l _ _)

theorem partitionEqualGo_perm (lt : α → α → Bool) (d : α) (l : List α)
    (a b pivot : Nat) : (partitionEqualGo lt d l a b pivot).1.Perm l :=
  (partitionEqualLoop_perm lt d _ _ _ _ _).trans (lsSwap_perm d l a pivot)

theorem breakPatternsGo_perm (d : α) (l : List α) (a b : Nat) :
    (breakPatternsGo d l a b).Perm l := by
  simp only [breakPatternsGo]
  split
  · exact (lsSwap_perm d _ _ _).trans
      ((lsSwap_perm d _ _ _).trans (lsSwap_perm d l _ _))
  · exact List.Perm.refl l

theorem pdqPartCont_perm (recur : PdqRecur α)
    (hr : ∀ l a b limit wb wp, (recur l a b limit wb wp).Perm l)
    (a b limit : Nat) (pp : List α × Nat × Bool) :
    (pdqPartCont recur a b limit pp).Perm pp.1 := by
  simp only [pdqPartCont]
  split
  · exact (hr _ _ _ _ _ _).trans (hr _ _ _ _ _ _)
  · exact (hr _ _ _ _ _ _).trans (hr _ _ _ _ _ _)

theorem pdqPartStage_perm (lt : α → α → Bool) (d : α) (recur : PdqRecur α)
    (hr : ∀ l a b limit wb wp, (recur l a b limit wb wp).Perm l)
    (l : List α) (a b limit pivot : Nat) :
    (pdqPartStage lt d recur l a b limit pivot).Perm l :=
  (pdqPartCont_perm recur hr a b limit _).trans
    (partitionGo_perm lt d l a b pivot)

theorem pdqEqualStage_perm (lt : α → α → Bool) (d : α) (recur : PdqRecur α)
    (hr : ∀ l a b limit wb wp, (recur l a b limit wb wp).Perm l)
    (l : List α) (a b limit : Nat) (wb wp : Bool) (pivot : Nat) :
    (pdqEqualStage lt d recur l a b limit wb wp pivot).Perm l := by
  unfold pdqEqualStage pdqEqualCont
  split
  · exact (hr _ _ _ _ _ _).trans (partitionEqualGo_perm lt d l a b pivot)
  · exact pdqPartStage_perm lt d recur hr l a b limit pivot

theorem pdqEarlyDone_perm (lt : α → α → Bool) (d : α) (recur : PdqRecur α)
    (hr : ∀ l a b limit wb wp, (recur l a b limit wb wp).Perm l)
    (a b limit : Nat) (wb wp : Bool) (pivot : Nat) (pr : List α × Bool) :
    (pdqEarlyDone lt d recur a b limit wb wp pivot pr).Perm pr.1 := by
  unfold pdqEarlyDone
  split
  · exact List.Perm.refl _
  · exact pdqEqualStage_perm lt d recur hr pr.1 a b limit wb wp pivot

theorem pdqEarlyStage_perm (lt : α → α → Bool) (d : α) (recur : PdqRecur α)
    (hr : ∀ l a b limit wb wp, (recur l a b limit wb wp).Perm l)
    (l : List α) (a b limit : Nat) (wb wp : Bool) (pivot : Nat)
    (hint : SortedHint) :
    (pdqEarlyStage lt d recur l a b limit wb wp pivot hint).Perm l := by
  unfold pdqEarlyStage
  split
  · exact (pdqEarlyDone_perm lt d recur hr a b limit wb wp pivot _).trans
      (maxStepsInsertionGo_perm lt d l a b)
  · exact pdqEqualStage_perm lt d recur hr l a b limit wb wp pivot

theorem pdqHintStage_perm (lt : α → α → Bool) (d : α) (recur : PdqRecur α)
    (hr : ∀ l a b limit wb wp, (recur l a b limit wb wp).Perm l)
    (l : List α) (a b limit : Nat) (wb wp : Bool) (cp : Nat × SortedHint) :
    (pdqHintStage lt d recur l a b limit wb wp cp).Perm l := by
  unfold pdqHintStage
  split
  · exact (pdqEarlyStage_perm lt d recur hr _ a b limit wb wp _ _).trans
      (reverseRangeGo_perm d l a b)
  · exact pdqEarlyStage_perm lt d recur hr l a b limit wb wp cp.1 cp.2

theorem pdqBreakStage_perm (lt : α → α → Bool) (d : α) (recur : PdqRecur α)
    (hr : ∀ l a b limit wb wp, (recur l a b limit wb wp).Perm l)
    (l : List α) (a b limit : Nat) (wb wp : Bool) :
    (pdqBreakStage lt d recur l a b limit wb wp).Perm l := by
  unfold pdqBreakStage pdqPivotStage
  split
  · exact (pdqHintStage_perm lt d recur hr _ a b (limit - 1) wb wp _).trans
      (breakPatternsGo_perm d l a b)
  · exact pdqHintStage_perm lt d recur hr l a b limit wb wp _

theorem pdqsortLoop_perm (lt : α → α → Bool) (d : α) :
    ∀ (fuel : Nat) (l : List α) (a b limit : Nat) (wb wp : Bool),
      (pdqsortLoop lt d fuel l a b limit wb wp).Perm l := by
  intro fuel
  induction fuel with
  | zero => intro l a b limit wb wp; exact List.Perm.refl l
  | succ fuel ih =>
    intro l a b limit wb wp
    simp only [pdqsortLoop]
    split
    · exact insertionSortGo_perm lt d l a b
    · split
      · exact heapSortGo_perm lt d l a b
      · exact pdqBreakStage_perm lt d _
          (fun l' a' b' limit' wb' wp' => ih l' a' b' limit' wb' wp')
          l a b limit wb wp

theorem goSortSlice_perm (lt : α → α → Bool) (d : α) (l : List α) :
    (goSortSlice lt d l).Perm l :=
  pdqsortLoop_perm lt d (l.length + 2) l 0 l.length (bitsLen l.length) true true

end PermLemmas

/-- The sorted candidate list is a permutation of the scored corpus. -/
theorem sortMatches_perm (ms : List Match) : (sortMatches ms).Perm ms :=
  goSortSlice_perm lessByDistance defaultMatch ms

/-- When `limit > 0` and fewer than `limit` results are accumulated so
far, the walk never returns more than `limit` domains. -/
theorem filterLoop_length_le (c : String) (t : ℚ) (limit : Int) :
    ∀ (ms : List Match) (acc : List String), 0 < limit →
      (acc.length : Int) < limit →
      ((filterLoop c t limit ms acc).length : Int) ≤ limit := by
  intro ms
  induction ms with
  | nil => intro acc _ h2; simpa [filterLoop] using le_of_lt h2
  | cons m rest ih =>
    intro acc h1 h2
    simp only [filterLoop]
    split
    · exact ih acc h1 h2
    · split
      · split
        · next hcond =>
          simp only [List.length_append, List.length_cons, List.length_nil]
          push_cast
          omega
        · next hcond =>
          refine ih _ h1 ?_
          simp only [List.length_append, List.length_cons, List.length_nil] at hcond ⊢
          push_cast at hcond ⊢
          omega
      · exact ih acc h1 h2

/-- When `limit ≤ 0` the walk never breaks: it returns the accumulator
followed by every passing candidate, in order. -/
theorem filterLoop_nonpos (c : String) (t : ℚ) (limit : Int)
    (hl : limit ≤ 0) :
    ∀ (ms : List Match) (acc : List String),
      filterLoop c t limit ms acc =
        acc ++ (ms.filter (keepMatch c t)).map Match.Domain := by
  intro ms
  induction ms with
  | nil => intro acc; simp [filterLoop]
  | cons m rest ih =>
    intro acc
    simp only [filterLoop]
    split
    · next hsim => rw [ih acc]; simp [keepMatch, hsim]
    · next hsim =>
      split
      · next hctry =>
        split
        · next hbreak => exact absurd hbreak.1 (not_lt.mpr hl)
        · next hbreak =>
          rw [ih (acc ++ [m.Domain])]
          simp [keepMatch, hsim, hctry]
      · next hctry =>
        rw [ih acc]
        simp only [List.filter_cons]
        have : keepMatch c t m = false := by simp [keepMatch, hsim, hctry]
        simp [this]

/-- Once the walk has reached exactly `limit` kept candidates on a
prefix, appending further candidates does not change the result: the
walk stops at the limit. -/
theorem filterLoop_stops (c : String) (t : ℚ) (limit : Int)
    (h1 : 0 < limit) :
    ∀ (ms₁ ms₂ : List Match) (acc : List String),
      (acc.length : Int) < limit →
      ((filterLoop c t limit ms₁ acc).length : Int) = limit →
      filterLoop c t limit (ms₁ ++ ms₂) acc = filterLoop c t limit ms₁ acc := by
  intro ms₁
  induction ms₁ with
  | nil =>
    intro ms₂ acc hacc hlen
    simp only [filterLoop] at hlen
    omega
  | cons m rest ih =>
    intro ms₂ acc hacc hlen
    simp only [List.cons_append, filterLoop] at hlen ⊢
    split
    · next hsim =>
      rw [if_pos hsim] at hlen
      exact ih ms₂ acc hacc hlen
    · next hsim =>
      rw [if_neg hsim] at hlen
      split
      · next hctry =>
        rw [if_pos hctry] at hlen
        split
        · rfl
        · next hbreak =>
          rw [if_neg hbreak] at hlen
          refine ih ms₂ (acc ++ [m.Domain]) ?_ hlen
          simp only [List.length_append, List.length_cons, List.length_nil] at hbreak ⊢
          push_cast at hbreak ⊢
          omega
      · next hctry =>
        rw [if_neg hctry] at hlen
        exact ih ms₂ acc hacc hlen

/-- Every domain the walk returns that is not already in the
accumulator is the domain of a candidate in the list that passed both
filters. -/
theorem filterLoop_mem (c : String) (t : ℚ) (limit : Int) :
    ∀ (ms : List Match) (acc : List String) (d : String),
      d ∈ filterLoop c t limit ms acc →
      d ∈ acc ∨ ∃ m, m ∈ ms ∧ m.Domain = d ∧ keepMatch c t m = true := by
  intro ms
  induction ms with
  | nil => intro acc d hd; exact Or.inl (by simpa [filterLoop] using hd)
  | cons m rest ih =>
    intro acc d hd
    simp only [filterLoop] at hd
    have mem_cons : ∀ m', m' ∈ rest → m' ∈ m :: rest := fun m' h =>
      List.mem_cons_of_mem m h
    split at hd
    · next hsim =>
      rcases ih acc d hd with h | ⟨m', hm', hdm, hk⟩
      · exact Or.inl h
      · exact Or.inr ⟨m', mem_cons m' hm', hdm, hk⟩
    · next hsim =>
      split at hd
      · next hctry =>
        have hkeep : keepMatch c t m = true := by simp [keepMatch, hsim, hctry]
        split at hd
        · rcases List.mem_append.mp hd with h | h
          · exact Or.inl h
          · exact Or.inr ⟨m, List.mem_cons_self m rest, (List.mem_singleton.mp h).symm, hkeep⟩
        · rcases ih (acc ++ [m.Domain]) d hd with h | ⟨m', hm', hdm, hk⟩
          · rcases List.mem_append.mp h with h' | h'
            · exact Or.inl h'
            · exact Or.inr ⟨m, List.mem_cons_self m rest, (List.mem_singleton.mp h').symm, hkeep⟩
          · exact Or.inr ⟨m', mem_cons m' hm', hdm, hk⟩
      · next hctry =>
        rcases ih acc d hd with h | ⟨m', hm', hdm, hk⟩
        · exact Or.inl h
        · exact Or.inr ⟨m', mem_cons m' hm', hdm, hk⟩

/-- When no candidate passes, the walk returns the accumulator
unchanged. -/
theorem filterLoop_all_fail (c : String) (t : ℚ) (limit : Int) :
    ∀ (ms : List Match) (acc : List String),
      (∀ m ∈ ms, keepMatch c t m = false) →
      filterLoop c t limit ms acc = acc := by
  intro ms
  induction ms with
  | nil => intro acc _; simp [filterLoop]
  | cons m rest ih =>
    intro acc hall
    have hm := hall m (List.mem_cons_self m rest)
    have hrest : ∀ m' ∈ rest, keepMatch c t m' = false := fun m' h =>
      hall m' (List.mem_cons_of_mem m h)
    simp only [filterLoop]
    split
    · exact ih acc hrest
    · next hsim =>
      split
      · next hctry => simp [keepMatch, hsim, hctry] at hm
      · exact ih acc hrest

/-- The row loop keeps exactly the rows `rowParse` accepts, in order. -/
theorem processRows_eq_filterMap (pf : String → Option ℚ) :
    ∀ rows : List (List String),
      processRows pf rows = rows.filterMap (rowParse pf) := by
  intro rows
  induction rows with
  | nil => simp [processRows]
  | cons r rest ih =>
    match r with
    | [] => simpa [processRows, rowParse, List.filterMap_cons] using ih
    | [c0] => simpa [processRows, rowParse, List.filterMap_cons] using ih
    | [c0, c1] => simpa [processRows, rowParse, List.filterMap_cons] using ih
    | [c0, c1, c2] => simpa [processRows, rowParse, List.filterMap_cons] using ih
    | c0 :: c1 :: c2 :: c3 :: cs =>
      simp only [processRows, rowParse, List.filterMap_cons]
      cases h : parseEmbeddingString pf c3 with
      | none => simpa [h] using ih
      | some emb => simpa [h, Option.map_some] using ih

/-- Counting: kept rows plus skipped rows add up to all scanned rows. -/
theorem filterMap_length_accounting {γ δ : Type} (f : γ → Option δ) :
    ∀ l : List γ,
      (l.filterMap f).length + (l.filter (fun x => (f x).isNone)).length =
        l.length := by
  intro l
  induction l with
  | nil => simp
  | cons x xs ih =>
    cases h : f x with
    | none =>
      simp only [List.filterMap_cons, List.filter_cons, h, Option.isNone_none,
        List.length_cons, if_true]
      omega
    | some y =>
      simp only [List.filterMap_cons, List.filter_cons, h, Option.isNone_some,
        List.length_cons, Bool.false_eq_true, if_false]
      omega

namespace SqliteVec

/-- The delegated backend's row loop is exactly a filter followed by a
projection: it keeps passing rows in store order and never re-ranks. -/
theorem rowsLoop_eq_filter (c : String) (t : ℚ) :
    ∀ rows : List StoreRow,
      rowsLoop c t rows = (rows.filter (keepRow c t)).map StoreRow.domain := by
  intro rows
  induction rows with
  | nil => simp [rowsLoop]
  | cons r rest ih =>
    simp only [rowsLoop, List.filter_cons]
    split
    · next hsim =>
      have : keepRow c t r = false := by simp [keepRow, hsim]
      simpa [this] using ih
    · next hsim =>
      split
      · next hctry =>
        have : keepRow c t r = true := by simp [keepRow, hsim, hctry]
        simpa [this] using ih
      · next hctry =>
        have : keepRow c t r = false := by simp [keepRow, hsim, hctry]
        simpa [this] using ih

end SqliteVec

/-!
Claim theorems.
-/

/-- C2, counterexample: at the concrete mismatched pair `[1]` (length
1) and `[1, 2]` (length 2), `cosineSimilarity` returns the similarity
value 0 — it does not fail: its return type has no error channel at
all, so no ShapeError can be raised for this single comparison. -/
theorem c2_mismatch_counterexample :
    ([(1 : ℚ)].length ≠ [(1 : ℚ), 2].length) ∧
      cosineSimilarity [1] [1, 2] = 0 := by
  exact ⟨by decide, by decide⟩

/-- C2, amended: for every pair of query and candidate vectors of
different lengths, the similarity computation silently returns the
zero similarity score for that comparison (the legacy behaviour the
spec flags in its §9; no ShapeError exists in this code). -/
theorem c2_mismatch_silent_zero (a b : List ℚ) (h : a.length ≠ b.length) :
    cosineSimilarity a b = 0 := by
  unfold cosineSimilarity
  rw [if_pos h]

/-- C2, witness for the amended theorem at `[1]` versus `[3, 4]`. -/
theorem c2_mismatch_silent_zero_witness :
    (([(1 : ℚ)] : List ℚ).length ≠ ([3, 4] : List ℚ).length) ∧
      cosineSimilarity [1] [3, 4] = 0 :=
  ⟨by decide, c2_mismatch_silent_zero [1] [3, 4] (by decide)⟩

/-- C4: for every raw cosine similarity `s` in `[-1, 1]`, the
in-memory scorer's normalized relevance `(s + 1) / 2` equals the
delegated backend's mapping `1 - distance / 2` applied to the
canonical distance `1 - s`: the two relevance scales agree for the
same underlying similarity value. -/
theorem c4_relevance_scales_agree (s : ℚ) (h1 : -1 ≤ s) (h2 : s ≤ 1) :
    similarity01 s = SqliteVec.similarityFromDistance (cosineDistance s) := by
  unfold similarity01 SqliteVec.similarityFromDistance cosineDistance
  ring

/-- C4, witness at `s = 1/2`. -/
theorem c4_relevance_scales_agree_witness :
    (-1 ≤ (1/2 : ℚ)) ∧ ((1/2 : ℚ) ≤ 1) ∧
      similarity01 (1/2) = SqliteVec.similarityFromDistance (cosineDistance (1/2)) :=
  ⟨by norm_num, by norm_num,
    c4_relevance_scales_agree (1/2) (by norm_num) (by norm_num)⟩

/-- C5: when the encoder collaborator fails, the engine returns the
complete response envelope with the query echoed, the effective
country recorded, error code 1, the empty (non-null) domain list, and
the elapsed-time reading taken at the failure point; and on every path
that returns at all, a nonzero error code always comes with an empty
domain list — never partial results. -/
theorem c5_encoder_failure_envelope (kw c : String) (t : ℚ) (limit : Int)
    (emsg : String) (lr : LoadResult) (m1 m2 m3 : Int) :
    getMatchingDomains kw c t limit (.error emsg) lr m1 m2 m3 =
      some (⟨kw, if c = "" then "us" else c, [], m1, 1⟩,
        some "failed to encode keywords") ∧
    (∀ (er : Except String (List ℚ)) (lr' : LoadResult) (resp : Response)
      (e : Option String),
      getMatchingDomains kw c t limit er lr' m1 m2 m3 = some (resp, e) →
      resp.ERR ≠ 0 → resp.DN = []) := by
  constructor
  · simp only [getMatchingDomains]
    by_cases hc : c = "" <;> simp [hc]
  · intro er lr' resp e h herr
    cases er with
    | error msg =>
      simp only [getMatchingDomains, Option.some.injEq, Prod.mk.injEq] at h
      obtain ⟨hresp, -⟩ := h
      rw [← hresp]
      by_cases hc : c = "" <;> simp [hc]
    | ok qe =>
      cases lr' with
      | panicIndex => simp [getMatchingDomains] at h
      | fail msg =>
        simp only [getMatchingDomains, Option.some.injEq, Prod.mk.injEq] at h
        obtain ⟨hresp, -⟩ := h
        rw [← hresp]
        by_cases hc : c = "" <;> simp [hc]
      | ok corpus =>
        simp only [getMatchingDomains, Option.some.injEq, Prod.mk.injEq] at h
        obtain ⟨hresp, -⟩ := h
        rw [← hresp] at herr
        by_cases hc : c = "" <;> simp [hc] at herr

/-- C5, witness: a concrete encoder failure, and the
no-partial-results clause applied to it. -/
theorem c5_encoder_failure_envelope_witness :
    (getMatchingDomains "k" "" 0 0 (.error "boom") (.ok []) 5 0 0 =
      some (⟨"k", "us", [], 5, 1⟩, some "failed to encode keywords")) ∧
    (⟨"k", "us", [], 5, 1⟩ : Response).DN = [] := by
  refine ⟨?_, ?_⟩
  · exact (c5_encoder_failure_envelope "k" "" 0 0 "boom" (.ok []) 5 0 0).1
  · exact (c5_encoder_failure_envelope "k" "" 0 0 "boom" (.ok []) 5 0 0).2
      (.error "boom") (.ok []) ⟨"k", "us", [], 5, 1⟩
      (some "failed to encode keywords")
      (c5_encoder_failure_envelope "k" "" 0 0 "boom" (.ok []) 5 0 0).1
      (by decide)

/-- C8, counterexample: a tabular source whose only row has a single
nonempty column is not skipped — loading panics on the out-of-range
header read instead of producing the empty corpus; and a source with
zero rows reports a load failure rather than an empty corpus. -/
theorem c8_malformed_first_row_not_skipped :
    loadEmbeddingsFromCSV (fun _ => some 0) [["y"]] = LoadResult.panicIndex ∧
    loadEmbeddingsFromCSV (fun _ => some 0) [] =
      LoadResult.fail "CSV file is empty" :=
  ⟨rfl, rfl⟩

/-- C8, amended: for every nonempty tabular source whose first record
is safe for the header check (first cell empty, or at least two
cells), loading succeeds with exactly the well-formed scanned rows —
each row with fewer than 4 columns or an unparsable embedding is
skipped and reduces the corpus by exactly one — and kept plus skipped
rows account for every scanned row. -/
theorem c8_malformed_rows_skipped (pf : String → Option ℚ)
    (first : List String) (rest : List (List String)) (hne : first ≠ [])
    (hsafe : first.headD "" = "" ∨ 2 ≤ first.length) :
    loadEmbeddingsFromCSV pf (first :: rest) =
      LoadResult.ok
        (((first :: rest).drop
            (if first.headD "" = "" ∨ first.getD 1 "" = "domain" then 1
             else 0)).filterMap (rowParse pf)) ∧
    (∀ scanned : List (List String),
      (scanned.filterMap (rowParse pf)).length +
        (scanned.filter (fun r => (rowParse pf r).isNone)).length =
        scanned.length) := by
  constructor
  · match first, hne with
    | c0 :: cells, _ =>
      by_cases hc0 : c0 = ""
      · simp only [loadEmbeddingsFromCSV, hc0, if_pos rfl,
          processRows_eq_filterMap]
        simp
      · have hlen : 2 ≤ (c0 :: cells).length := by
          rcases hsafe with h | h
          · exact absurd (by simpa using h) hc0
          · exact h
        match cells with
        | [] => simp at hlen
        | c1 :: cs =>
          by_cases hc1 : c1 = "domain"
          · simp only [loadEmbeddingsFromCSV, processRows_eq_filterMap]
            simp [hc0, hc1]
          · simp only [loadEmbeddingsFromCSV, processRows_eq_filterMap]
            simp [hc0, hc1]
  · intro scanned
    exact filterMap_length_accounting (rowParse pf) scanned

/-- C8, witness for the amended theorem: a source with a header row, a
3-column malformed row, and a row whose embedding fails to parse. -/
theorem c8_malformed_rows_skipped_witness :
    ((["", "domain", "country", "embed"] : List String) ≠ []) ∧
    ((["", "domain", "country", "embed"] : List String).headD "" = "" ∨
      2 ≤ (["", "domain", "country", "embed"] : List String).length) ∧
    loadEmbeddingsFromCSV (fun _ => none)
        [["", "domain", "country", "embed"], ["1", "a.com", "us"],
          ["2", "b.com", "us", "[bad]"]] =
      LoadResult.ok
        (([["1", "a.com", "us"], ["2", "b.com", "us", "[bad]"]]).filterMap
          (rowParse (fun _ => none))) := by
  refine ⟨by decide, Or.inl (by decide), ?_⟩
  have h := (c8_malformed_rows_skipped (fun _ => none)
    ["", "domain", "country", "embed"]
    [["1", "a.com", "us"], ["2", "b.com", "us", "[bad]"]]
    (by decide) (Or.inl (by decide))).1
  simpa using h

/-- C9: on the delegated backend's success path, the engine applies
only the locale filter and the `1 - distance/2` relevance threshold to
the store's row list: the returned domains are exactly the filter of
the rows in store order (no re-ranking, stated also as a sublist of
the store order), at most `k = 10` of them whenever the store honours
its `k = 10` cap — and this version of the engine has no limit
parameter at all, so the query's limit cannot raise that cap.
Ascending-distance order of the rows survives the filter. -/
theorem c9_delegated_backend_filter_only (kw c : String) (t : ℚ)
    (q : List ℚ) (rows : List SqliteVec.StoreRow) (m1 m2 m3 m4 m5 : Int)
    (hk : rows.length ≤ SqliteVec.neighborCap) :
    (SqliteVec.getMatchingDomains kw c t (.ok q) true true (.ok rows)
        m1 m2 m3 m4 m5).1.DN =
      (rows.filter (SqliteVec.keepRow (if c = "" then "us" else c) t)).map
        SqliteVec.StoreRow.domain ∧
    (SqliteVec.getMatchingDomains kw c t (.ok q) true true (.ok rows)
        m1 m2 m3 m4 m5).1.DN.Sublist (rows.map SqliteVec.StoreRow.domain) ∧
    (SqliteVec.getMatchingDomains kw c t (.ok q) true true (.ok rows)
        m1 m2 m3 m4 m5).1.DN.length ≤ SqliteVec.neighborCap ∧
    (rows.Pairwise (fun r s => r.distance ≤ s.distance) →
      (rows.filter (SqliteVec.keepRow (if c = "" then "us" else c) t)).Pairwise
        (fun r s => r.distance ≤ s.distance)) := by
  have hDN : (SqliteVec.getMatchingDomains kw c t (.ok q) true true (.ok rows)
      m1 m2 m3 m4 m5).1.DN =
      SqliteVec.rowsLoop (if c = "" then "us" else c) t rows := by
    simp only [SqliteVec.getMatchingDomains]
    by_cases hc : c = "" <;> simp [hc]
  rw [hDN, SqliteVec.rowsLoop_eq_filter]
  refine ⟨rfl, ?_, ?_, ?_⟩
  · exact (List.filter_sublist rows).map SqliteVec.StoreRow.domain
  · calc ((rows.filter (SqliteVec.keepRow (if c = "" then "us" else c) t)).map
        SqliteVec.StoreRow.domain).length
        = (rows.filter (SqliteVec.keepRow (if c = "" then "us" else c) t)).length :=
          List.length_map _ _
      _ ≤ rows.length := List.length_filter_le _ rows
      _ ≤ SqliteVec.neighborCap := hk
  · intro hsorted
    exact List.Pairwise.sublist (List.filter_sublist rows) hsorted

/-- C9, witness: one in-range row passing both filters. -/
theorem c9_delegated_backend_filter_only_witness :
    (([⟨"a.com", "us", 0⟩] : List SqliteVec.StoreRow).length ≤
      SqliteVec.neighborCap) ∧
    (SqliteVec.getMatchingDomains "k" "us" 0 (.ok [1]) true true
        (.ok [⟨"a.com", "us", 0⟩]) 0 0 0 0 0).1.DN =
      (([⟨"a.com", "us", 0⟩] : List SqliteVec.StoreRow).filter
          (SqliteVec.keepRow "us" 0)).map SqliteVec.StoreRow.domain := by
  refine ⟨by decide, ?_⟩
  have h := (c9_delegated_backend_filter_only "k" "us" 0 [1]
    [⟨"a.com", "us", 0⟩] 0 0 0 0 0 (by decide)).1
  simpa using h

/-- C10: the loader's header detection reads the second cell of the
first record without checking the record length: on the concrete input
whose single record is the one nonempty cell `"x"`, the first-cell
test fails, Go's short-circuit `||` evaluates `records[0][1]`, and
loading panics with an out-of-range index instead of returning an
error or skipping the row. -/
theorem c10_header_check_out_of_bounds :
    loadEmbeddingsFromCSV (fun _ => none) [["x"]] = LoadResult.panicIndex :=
  rfl

/-- C3: with the encoder and loader succeeding, (1) when `limit > 0`
the returned domain list has at most `limit` entries, (2) the walk
stops once `limit` candidates are kept — extending the sorted list
beyond the point where the limit was reached cannot change the result
— and (3) when `limit ≤ 0` the whole sorted candidate list is
scanned: the result is exactly every passing candidate in sorted
order, and in particular every scored corpus record that passes both
filters contributes its domain. -/
theorem c3_limit_semantics (kw c : String) (t : ℚ) (limit : Int)
    (q : List ℚ) (corpus : List DomainEmbedding) (m1 m2 m3 : Int)
    (resp : Response) (e : Option String)
    (h : getMatchingDomains kw c t limit (.ok q) (.ok corpus) m1 m2 m3 =
      some (resp, e)) :
    (0 < limit → (resp.DN.length : Int) ≤ limit) ∧
    (0 < limit → ∀ (ms₁ ms₂ : List Match) (acc : List String),
      (acc.length : Int) < limit →
      ((filterLoop (if c = "" then "us" else c) t limit ms₁ acc).length : Int) =
        limit →
      filterLoop (if c = "" then "us" else c) t limit (ms₁ ++ ms₂) acc =
        filterLoop (if c = "" then "us" else c) t limit ms₁ acc) ∧
    (limit ≤ 0 →
      resp.DN = ((sortMatches (scoreCorpus q corpus)).filter
        (keepMatch (if c = "" then "us" else c) t)).map Match.Domain ∧
      (∀ m ∈ scoreCorpus q corpus,
        keepMatch (if c = "" then "us" else c) t m = true →
        m.Domain ∈ resp.DN)) := by
  have hDN : resp.DN = filterLoop (if c = "" then "us" else c) t limit
      (sortMatches (scoreCorpus q corpus)) [] := by
    simp only [getMatchingDomains, Option.some.injEq, Prod.mk.injEq] at h
    obtain ⟨hresp, -⟩ := h
    rw [← hresp]
  refine ⟨?_, ?_, ?_⟩
  · intro hl
    rw [hDN]
    exact filterLoop_length_le _ _ _ _ [] hl (by simpa using hl)
  · intro hl ms₁ ms₂ acc hacc hlen
    exact filterLoop_stops _ _ _ hl ms₁ ms₂ acc hacc hlen
  · intro hl
    have hfull := filterLoop_nonpos (if c = "" then "us" else c) t limit hl
      (sortMatches (scoreCorpus q corpus)) []
    constructor
    · rw [hDN, hfull]
      exact List.nil_append _
    · intro m hm hk
      rw [hDN, hfull]
      simp only [List.nil_append]
      exact List.mem_map.mpr ⟨m, List.mem_filter.mpr
        ⟨((sortMatches_perm _).mem_iff).mpr hm, hk⟩, rfl⟩

attribute [local semireducible] Rat.add Rat.mul Rat.sub Rat.inv in
/-- C3, witness: a three-record corpus, limit 2, everything passing
the threshold: two domains come back. -/
theorem c3_limit_semantics_witness :
    ((0 : Int) < 2) ∧
    (getMatchingDomains "k" "us" 0 2 (.ok [1, 0])
        (.ok [⟨"a.com", "us", [1, 0]⟩, ⟨"b.com", "us", [0, 1]⟩,
          ⟨"c.com", "us", [3, 4]⟩]) 0 0 0 =
      some (⟨"k", "us", ["a.com", "c.com"], 0, 0⟩, none)) ∧
    (((["a.com", "c.com"] : List String).length : Int) ≤ 2) := by
  have hev : getMatchingDomains "k" "us" 0 2 (.ok [1, 0])
      (.ok [⟨"a.com", "us", [1, 0]⟩, ⟨"b.com", "us", [0, 1]⟩,
        ⟨"c.com", "us", [3, 4]⟩]) 0 0 0 =
      some (⟨"k", "us", ["a.com", "c.com"], 0, 0⟩, none) := by decide
  refine ⟨by decide, hev, ?_⟩
  exact (c3_limit_semantics "k" "us" 0 2 [1, 0]
    [⟨"a.com", "us", [1, 0]⟩, ⟨"b.com", "us", [0, 1]⟩, ⟨"c.com", "us", [3, 4]⟩]
    0 0 0 ⟨"k", "us", ["a.com", "c.com"], 0, 0⟩ none hev).1 (by decide)

/-- C6: on every path that returns, the response's country field
records the effective locale filter — the default `"us"` exactly when
the request's filter was empty — and on the success path every
returned domain is the domain of a scored corpus record whose locale
string equals the effective filter exactly. -/
theorem c6_locale_default_and_exact (kw c : String) (t : ℚ) (limit : Int)
    (er : Except String (List ℚ)) (lr : LoadResult) (m1 m2 m3 : Int)
    (resp : Response) (e : Option String)
    (h : getMatchingDomains kw c t limit er lr m1 m2 m3 = some (resp, e)) :
    resp.CN = (if c = "" then "us" else c) ∧
    (c = "" → resp.CN = "us") ∧
    (∀ (q : List ℚ) (corpus : List DomainEmbedding),
      er = .ok q → lr = .ok corpus →
      ∀ d ∈ resp.DN, ∃ m, m ∈ scoreCorpus q corpus ∧ m.Domain = d ∧
        m.Country = (if c = "" then "us" else c)) := by
  have hCN : resp.CN = (if c = "" then "us" else c) := by
    cases er with
    | error msg =>
      simp only [getMatchingDomains, Option.some.injEq, Prod.mk.injEq] at h
      obtain ⟨hresp, -⟩ := h
      rw [← hresp]
      by_cases hc : c = "" <;> simp [hc]
    | ok qe =>
      cases lr with
      | panicIndex => simp [getMatchingDomains] at h
      | fail msg =>
        simp only [getMatchingDomains, Option.some.injEq, Prod.mk.injEq] at h
        obtain ⟨hresp, -⟩ := h
        rw [← hresp]
        by_cases hc : c = "" <;> simp [hc]
      | ok corpus =>
        simp only [getMatchingDomains, Option.some.injEq, Prod.mk.injEq] at h
        obtain ⟨hresp, -⟩ := h
        rw [← hresp]
        by_cases hc : c = "" <;> simp [hc]
  refine ⟨hCN, fun hc => by rw [hCN, if_pos hc], ?_⟩
  rintro q corpus rfl rfl d hd
  have hDN : resp.DN = filterLoop (if c = "" then "us" else c) t limit
      (sortMatches (scoreCorpus q corpus)) [] := by
    simp only [getMatchingDomains, Option.some.injEq, Prod.mk.injEq] at h
    obtain ⟨hresp, -⟩ := h
    rw [← hresp]
  rw [hDN] at hd
  rcases filterLoop_mem _ _ _ _ [] d hd with habs | ⟨m, hm, hdm, hk⟩
  · simp at habs
  · refine ⟨m, ((sortMatches_perm _).mem_iff).mp hm, hdm, ?_⟩
    unfold keepMatch at hk
    by_cases hc : c = ""
    · rw [if_pos hc] at hk ⊢
      split at hk
      · simp at hk
      · split at hk
        · next hor =>
          rcases hor with h1 | h2
          · exact absurd h1 (by decide)
          · exact h2
        · simp at hk
    · rw [if_neg hc] at hk ⊢
      split at hk
      · simp at hk
      · split at hk
        · next hor =>
          rcases hor with h1 | h2
          · exact absurd h1 hc
          · exact h2
        · simp at hk

attribute [local semireducible] Rat.add Rat.mul Rat.sub Rat.inv in
/-- C6, witness: empty locale filter defaulted to "us" and recorded;
the one returned domain comes from a record with locale exactly
"us". -/
theorem c6_locale_default_and_exact_witness :
    (getMatchingDomains "k" "" 0 3 (.ok [1, 0])
        (.ok [⟨"a.com", "us", [1, 0]⟩]) 0 0 0 =
      some (⟨"k", "us", ["a.com"], 0, 0⟩, none)) ∧
    (⟨"k", "us", ["a.com"], 0, 0⟩ : Response).CN = "us" ∧
    (∃ m, m ∈ scoreCorpus [1, 0] [⟨"a.com", "us", [1, 0]⟩] ∧
      m.Domain = "a.com" ∧ m.Country = "us") := by
  have hev : getMatchingDomains "k" "" 0 3 (.ok [1, 0])
      (.ok [⟨"a.com", "us", [1, 0]⟩]) 0 0 0 =
      some (⟨"k", "us", ["a.com"], 0, 0⟩, none) := by decide
  refine ⟨hev, ?_, ?_⟩
  · exact (c6_locale_default_and_exact "k" "" 0 3 (.ok [1, 0])
      (.ok [⟨"a.com", "us", [1, 0]⟩]) 0 0 0 _ none hev).2.1 rfl
  · exact (c6_locale_default_and_exact "k" "" 0 3 (.ok [1, 0])
      (.ok [⟨"a.com", "us", [1, 0]⟩]) 0 0 0 _ none hev).2.2
      [1, 0] [⟨"a.com", "us", [1, 0]⟩] rfl rfl "a.com" (by decide)

/-- C7: with the encoder and loader succeeding, when no scored
candidate passes the threshold and locale filters — in particular for
an empty corpus, or a threshold above every candidate's normalized
relevance — the engine returns the empty domain list with error code
0 and a nil Go error: no matches is a valid result, not an error. -/
theorem c7_no_matches_not_error (kw c : String) (t : ℚ) (limit : Int)
    (q : List ℚ) (corpus : List DomainEmbedding) (m1 m2 m3 : Int)
    (resp : Response) (e : Option String)
    (h : getMatchingDomains kw c t limit (.ok q) (.ok corpus) m1 m2 m3 =
      some (resp, e))
    (hfail : ∀ m ∈ scoreCorpus q corpus,
      keepMatch (if c = "" then "us" else c) t m = false) :
    resp.DN = [] ∧ resp.ERR = 0 ∧ e = none := by
  simp only [getMatchingDomains, Option.some.injEq, Prod.mk.injEq] at h
  obtain ⟨hresp, he⟩ := h
  have hDN : resp.DN = filterLoop (if c = "" then "us" else c) t limit
      (sortMatches (scoreCorpus q corpus)) [] := by
    rw [← hresp]
  have hERR : resp.ERR = 0 := by
    rw [← hresp]
    by_cases hc : c = "" <;> simp [hc]
  refine ⟨?_, hERR, he.symm⟩
  rw [hDN]
  exact filterLoop_all_fail _ _ _ _ [] (fun m hm =>
    hfail m (((sortMatches_perm _).mem_iff).mp hm))

/-- C7, witness: the empty corpus yields the empty domain list with
error code 0. -/
theorem c7_no_matches_not_error_witness :
    (getMatchingDomains "k" "us" 0 3 (.ok [1]) (.ok []) 0 0 9 =
      some (⟨"k", "us", [], 9, 0⟩, none)) ∧
    (⟨"k", "us", [], 9, 0⟩ : Response).DN = [] ∧
    (⟨"k", "us", [], 9, 0⟩ : Response).ERR = 0 ∧
    (none : Option String) = none := by
  have h : getMatchingDomains "k" "us" 0 3 (.ok [1]) (.ok []) 0 0 9 =
      some (⟨"k", "us", [], 9, 0⟩, none) := by rfl
  have happ := c7_no_matches_not_error "k" "us" 0 3 [1] [] 0 0 9
    ⟨"k", "us", [], 9, 0⟩ none h (by intro m hm; simp [scoreCorpus] at hm)
  exact ⟨h, happ.1, happ.2.1, happ.2.2⟩

attribute [local semireducible] Rat.add Rat.mul Rat.sub Rat.inv in
/-- C1, failing input: thirteen candidates, `d0` through `d11` all at
distance exactly 1 from the query (their scored records are listed and
equal except for the domain name) and `d12` at distance 0, in corpus
order `d0, …, d12`.  A stable ascending-distance sort would return
`d12` followed by `d0, …, d11` in corpus order.  The ranker's
`sort.Slice` (Go's pdqsort, not stable) instead returns the ties in
the order `d6, d2, d3, d4, d5, d0, d7, d8, d9, d10, d11, d1`: equal
distances do not preserve the original corpus order, contradicting the
spec's required stable, order-preserving tie-break.  The quoted
thirteen-element ranked output is Go's deterministic pdqsort result,
reproduced by the faithful embedding of `sort.Slice`. -/
theorem c1_tie_break_not_stable :
    scoreCorpus [1, 0] c1Corpus =
      [⟨"d0", "us", 1/2, 1⟩, ⟨"d1", "us", 1/2, 1⟩, ⟨"d2", "us", 1/2, 1⟩,
        ⟨"d3", "us", 1/2, 1⟩, ⟨"d4", "us", 1/2, 1⟩, ⟨"d5", "us", 1/2, 1⟩,
        ⟨"d6", "us", 1/2, 1⟩, ⟨"d7", "us", 1/2, 1⟩, ⟨"d8", "us", 1/2, 1⟩,
        ⟨"d9", "us", 1/2, 1⟩, ⟨"d10", "us", 1/2, 1⟩, ⟨"d11", "us", 1/2, 1⟩,
        ⟨"d12", "us", 1, 0⟩] ∧
    getMatchingDomains "q" "us" 0 0 (.ok [1, 0]) (.ok c1Corpus) 0 0 0 =
      some (⟨"q", "us",
        ["d12", "d6", "d2", "d3", "d4", "d5", "d0", "d7", "d8", "d9", "d10",
          "d11", "d1"], 0, 0⟩, none) ∧
    getMatchingDomains "q" "us" 0 0 (.ok [1, 0]) (.ok c1Corpus) 0 0 0 ≠
      some (⟨"q", "us",
        ["d12", "d0", "d1", "d2", "d3", "d4", "d5", "d6", "d7", "d8", "d9",
          "d10", "d11"], 0, 0⟩, none) := by
  exact ⟨by decide, by decide, by decide⟩

end TensorSearch
